import Mathlib

/-!
Verification development for the PatternLab sequencing & export engine
(`src/index.tsx`): the MIDI encoder (`SimpleMidiWriter`), the procedural
pattern generator (`generatePatternLogic`), the look-ahead playback
scheduler (`scheduler` / `scheduleNote`), and the chord data path
(`CHORD_TYPES`, `handleAddChord`, `handleExportMidi`).

Conventions of the embedding:
* JavaScript numbers appearing in bitwise contexts are modelled as their
  32-bit views: a buffer is kept as a `Nat` below `2 ^ 32` holding the
  int32 bit pattern, `<< 8` is multiplication by 256 modulo `2 ^ 32`, and
  the arithmetic shift `>> 8` sign-extends when bit 31 is set.
* `x & 0xff` is `x % 256`, `x & 0x7f` is `x % 128`, and `x | 0x80` on a
  value below 128 is `x + 128` (disjoint bits).
* Audio-clock times and `Math.random()` outputs are modelled as rationals.
* A fallible JavaScript step (an unguarded `CHORD_TYPES[...]` lookup, or
  a loop that need not terminate) is modelled with `Option`.
-/

namespace PatternLab

/-! ## Shared constants (src/index.tsx lines 37-69) -/

def STEPS_PER_BAR : Nat := 16

def BARS : Nat := 4

def TOTAL_STEPS : Nat := STEPS_PER_BAR * BARS

structure DrumTrack where
  id : Nat
  name : String
  audioKey : String
  midiNote : Nat
  color : String
  deriving Repr, DecidableEq

def DRUM_TRACKS : List DrumTrack :=
  [ ⟨0, "Grosse Caisse", "Kick", 36, "bg-orange-500"⟩,
    ⟨1, "Caisse Claire", "Snare", 38, "bg-cyan-500"⟩,
    ⟨2, "Charley Fermé", "Hi-Hat Closed", 42, "bg-yellow-400"⟩,
    ⟨3, "Charley Ouvert", "Hi-Hat Open", 46, "bg-yellow-200"⟩ ]

def SCALES : List (String × List Nat) :=
  [ ("Majeur", [0, 2, 4, 5, 7, 9, 11]),
    ("Mineur", [0, 2, 3, 5, 7, 8, 10]),
    ("Dorien", [0, 2, 3, 5, 7, 9, 10]),
    ("Phrygien", [0, 1, 3, 5, 7, 8, 10]),
    ("Lydien", [0, 2, 4, 6, 7, 9, 11]),
    ("Mixolydien", [0, 2, 4, 5, 7, 9, 10]) ]

def CHORD_TYPES : List (String × List Nat) :=
  [ ("Majeur", [0, 4, 7]),
    ("Mineur", [0, 3, 7]),
    ("7", [0, 4, 7, 10]),
    ("Maj7", [0, 4, 7, 11]),
    ("m7", [0, 3, 7, 10]),
    ("dim", [0, 3, 6]),
    ("aug", [0, 4, 8]),
    ("sus4", [0, 5, 7]),
    ("sus2", [0, 2, 7]) ]

def NOTES_NAMES : List String :=
  ["C", "C#", "D", "D#", "E", "F"] ++ ["F#", "G", "G#", "A", "A#", "B"]

/-- JavaScript `Array.prototype.indexOf`: the index of the first
occurrence, or `-1` when the element is absent. -/
def jsIndexOf (l : List String) (s : String) : Int :=
  if s ∈ l then (l.indexOf s : Int) else -1

/-! ## VLQ encoding (`SimpleMidiWriter.writeVLQ`, lines 259-270)

The JS routine first folds the 7-bit groups of `val` into a single
numeric `buffer` (`buffer <<= 8; buffer |= (val & 0x7f) | 0x80` after
each `val >>= 7`), then pops bytes off the low end of `buffer` until a
byte without the continuation bit appears.  All of this happens in
int32 arithmetic, which we model on the 32-bit bit pattern. -/

/-- `buffer << 8` in JavaScript int32 arithmetic, on the bit pattern. -/
def jsShl8 (b : Nat) : Nat := (b * 256) % 2 ^ 32

/-- `buffer >> 8` (sign-propagating) in JavaScript int32 arithmetic, on
the bit pattern: when bit 31 is set the vacated byte is filled with
ones. -/
def jsSar8 (b : Nat) : Nat :=
  if b < 2 ^ 31 then b / 256 else b / 256 + 0xFF000000

/-- The `while ((val >>= 7)) { buffer <<= 8; buffer |= (val & 0x7f) | 0x80 }`
loop of `writeVLQ`: `val` is updated before the test, and the new 7-bit
group (with continuation bit) lands in the low byte of `buffer`.  Valid
for `val < 2 ^ 31`, where the JS right shift is division by 128.
Structural recursion on fuel; every int32 value needs at most five
iterations, so the fuel of 8 used below is never exhausted. -/
def vlqBuildAux : Nat → Nat → Nat → Nat
  | 0, _, buffer => buffer
  | fuel + 1, val, buffer =>
    let v := val / 128
    if v = 0 then buffer
    else vlqBuildAux fuel v (jsShl8 buffer + (v % 128 + 128))

/-- The emission loop of `writeVLQ`: push `buffer & 0xff`, and continue
with `buffer >>= 8` while the continuation bit `0x80` of the pushed byte
is set.  The loop does not terminate for every int32 buffer (arithmetic
shift of a negative buffer eventually yields `-1` forever), so it is
modelled with fuel; `none` marks divergence. -/
def vlqEmit : Nat → Nat → Option (List Nat)
  | 0, _ => none
  | fuel + 1, buffer =>
    let byte := buffer % 256
    if 128 ≤ byte then (vlqEmit fuel (jsSar8 buffer)).map (byte :: ·)
    else some [byte]

/-- `SimpleMidiWriter.writeVLQ` on a non-negative int32 value: build the
buffer from `val & 0x7f`, then emit.  Eight units of fuel cover every
terminating run (a terminating emission from a 32-bit buffer has at most
four bytes). -/
def writeVLQ (n : Nat) : Option (List Nat) :=
  vlqEmit 8 (vlqBuildAux 8 n (n % 128))

/-- The documented VLQ decoding scheme: 7 bits per byte, big-endian
group order (spec §4.2 / §8). -/
def decodeVLQ (bytes : List Nat) : Nat :=
  bytes.foldl (fun acc b => acc * 128 + b % 128) 0

/-! ## MIDI file assembly (`SimpleMidiWriter.createMidiFile`, lines 272-317) -/

/-- The note records handed to `createMidiFile` by `handleExportMidi`. -/
structure MidiNote where
  pitch : Nat
  startTick : Nat
  durationTicks : Nat
  channel : Nat
  deriving Repr, DecidableEq

/-- The intermediate `MidiEvent` records built inside `createMidiFile`. -/
structure MidiEvent where
  tick : Nat
  isOn : Bool
  pitch : Nat
  channel : Nat
  deriving Repr, DecidableEq

/-- `writeInt16`: big-endian 16-bit write (`(val >> 8) & 0xff`, `val & 0xff`). -/
def writeInt16 (v : Nat) : List Nat := [v / 2 ^ 8 % 256, v % 256]

/-- `writeInt32`: big-endian 32-bit write. -/
def writeInt32 (v : Nat) : List Nat :=
  [v / 2 ^ 24 % 256, v / 2 ^ 16 % 256, v / 2 ^ 8 % 256, v % 256]

/-- The header chunk: `writeString('MThd'); writeInt32(6); writeInt16(1);
writeInt16(1); writeInt16(480)`. -/
def headerBytes : List Nat :=
  [0x4D, 0x54, 0x68, 0x64] ++ writeInt32 6 ++ writeInt16 1 ++ writeInt16 1 ++ writeInt16 480

/-- The two events pushed per note: a note-on at `startTick` and a
note-off at `startTick + durationTicks`. -/
def noteEvents (n : MidiNote) : List MidiEvent :=
  [⟨n.startTick, true, n.pitch, n.channel⟩,
   ⟨n.startTick + n.durationTicks, false, n.pitch, n.channel⟩]

/-- Stable insertion into an ascending list: `e` goes after every
element with a strictly smaller tick and before elements with an equal
or larger tick, preserving the original order of ties. -/
def insertEvent (e : MidiEvent) : List MidiEvent → List MidiEvent
  | [] => [e]
  | x :: xs => if x.tick < e.tick then x :: insertEvent e xs else e :: x :: xs

/-- `events.sort((a, b) => a.tick - b.tick)`: `Array.prototype.sort` is
a stable ascending sort on `tick`, realized here as a stable insertion
sort (structural, so that concrete instances compute). -/
def sortEvents : List MidiEvent → List MidiEvent
  | [] => []
  | e :: es => insertEvent e (sortEvents es)

def midiEvents (notes : List MidiNote) : List MidiEvent :=
  sortEvents (notes.flatMap noteEvents)

/-- `(e.type === 'on' ? 0x90 : 0x80) | e.channel`. -/
def statusByte (e : MidiEvent) : Nat :=
  (if e.isOn then 0x90 else 0x80) ||| e.channel

/-- The event-encoding loop: each event is written as a VLQ delta from
the previous tick, then status, pitch and a velocity byte that is the
literal `100` for note-on and `0` for note-off.  The events are sorted,
so the `Nat` subtraction in the delta never truncates. -/
def eventBytes : Nat → List MidiEvent → Option (List Nat)
  | _, [] => some []
  | lastTick, e :: es => do
    let delta ← writeVLQ (e.tick - lastTick)
    let rest ← eventBytes e.tick es
    pure (delta ++ [statusByte e, e.pitch, if e.isOn then 100 else 0] ++ rest)

/-- The track payload: encoded events followed by the zero-delta
End-of-Track meta event `FF 2F 00`. -/
def trackData (notes : List MidiNote) : Option (List Nat) := do
  let evs ← eventBytes 0 (midiEvents notes)
  let eot ← writeVLQ 0
  pure (evs ++ eot ++ [0xFF, 0x2F, 0x00])

/-- `createMidiFile`: header chunk, then `MTrk`, the 32-bit payload
length, and the payload. -/
def createMidiFile (notes : List MidiNote) : Option (List Nat) := do
  let td ← trackData notes
  pure (headerBytes ++ [0x4D, 0x54, 0x72, 0x6B] ++ writeInt32 td.length ++ td)

/-! ## Export paths (`handleExportMidi`, lines 694-745) -/

/-- One drum row of the export: for each active step, a note with the
track's MIDI pitch, `startTick = step * 120`, a 60-tick duration, on
channel 9.  Steps are visited in ascending order as in `forEach`. -/
def rowNotes (midiNote : Nat) (row : List Bool) : List MidiNote :=
  (List.range row.length).filterMap fun step =>
    if row.getD step false then some ⟨midiNote, step * 120, 60, 9⟩ else none

/-- The drum-branch note list: rows of the grid paired with the entries
of `DRUM_TRACKS` (the code indexes `DRUM_TRACKS[trackIdx]`; the grid
always has exactly four rows). -/
def drumNotes (grid : List (List Bool)) : List MidiNote :=
  (DRUM_TRACKS.zip grid).flatMap fun tr => rowNotes tr.1.midiNote tr.2

def drumExportBytes (grid : List (List Bool)) : Option (List Nat) :=
  createMidiFile (drumNotes grid)

/-! ## The generated-note data model and the pattern generator
(`generatePatternLogic`, lines 325-411)

`Math.random()` is modelled as an explicit stream `rand : Nat → ℚ` of
values (in `[0, 1)` for genuine JS streams) consumed in call order; `k`
is the position of the next unconsumed value. -/

structure Note where
  pitch : Int
  startTime : Nat
  duration : Int
  velocity : Nat
  deriving Repr, DecidableEq

/-- The scale chosen from the style: `Mineur` by default, overridden for
`Pop`/`Jazz`/`Funk`, then `SCALES[scaleName] || SCALES['Mineur']`. -/
def styleScale (style : String) : List Nat :=
  let scaleName :=
    if style = "Pop" then "Majeur"
    else if style = "Jazz" then "Dorien"
    else if style = "Funk" then "Mixolydien"
    else "Mineur"
  (SCALES.lookup scaleName).getD ((SCALES.lookup "Mineur").getD [])

/-- `getPitch(degree)`: `rootNote + 12 * floor(degree / 7) +
scaleIntervals[degree % 7]` (the unused `octaveOffset` parameter always
defaults to 0). All call sites pass a non-negative degree. -/
def getPitch (rootNote : Int) (scaleIntervals : List Nat) (degree : Nat) : Int :=
  rootNote + (degree / 7 : Nat) * 12 + scaleIntervals.getD (degree % 7) 0

/-- One iteration of the bass loop at step `i` with the random stream at
position `k`: returns the emitted note (if any) and the new stream
position.  Branch order follows the source: bar start (`i % 16 === 0`),
then third beat (`i % 16 === 8 && Math.random() > 0.2`, falling through
to the density test when the random draw fails), then the density test
`Math.random() * 100 < density * 0.5`.  Every emitted note draws one
more random for `duration: 2 + Math.floor(Math.random() * 2)`. -/
def bassStep (density : ℚ) (gp : Nat → Int) (rand : Nat → ℚ) (i k : Nat) :
    Option Note × Nat :=
  if i % 16 = 0 then
    (some ⟨gp 0, i, 2 + ⌊rand k * 2⌋, 100⟩, k + 1)
  else if i % 16 = 8 then
    if rand k > 1 / 5 then
      (some ⟨gp 0, i, 2 + ⌊rand (k + 1) * 2⌋, 100⟩, k + 2)
    else if rand (k + 1) * 100 < density * (1 / 2) then
      let interval := [0, 2, 4, 6, 7].getD (⌊rand (k + 2) * 5⌋).toNat 0
      (some ⟨gp interval, i, 2 + ⌊rand (k + 3) * 2⌋, 100⟩, k + 4)
    else (none, k + 2)
  else if rand k * 100 < density * (1 / 2) then
    let interval := [0, 2, 4, 6, 7].getD (⌊rand (k + 1) * 5⌋).toNat 0
    (some ⟨gp interval, i, 2 + ⌊rand (k + 2) * 2⌋, 100⟩, k + 3)
  else (none, k + 1)

/-- The bass `for (let i = 0; i < totalSteps; i++)` loop, by recursion
on the number of remaining steps. -/
def bassLoop (density : ℚ) (gp : Nat → Int) (rand : Nat → ℚ) :
    Nat → Nat → Nat → List Note
  | 0, _, _ => []
  | r + 1, i, k =>
    (bassStep density gp rand i k).1.toList ++
      bassLoop density gp rand r (i + 1) (bassStep density gp rand i k).2

/-- One iteration of the chords loop (`i += 8`): with probability
`density%`, a stacked triad of three notes sharing `startTime = i`,
8-step duration and velocity 90, rooted at a random scale degree
`Math.floor(Math.random() * 4)`. -/
def chordGenStep (density : ℚ) (gp : Nat → Int) (rand : Nat → ℚ) (i k : Nat) :
    List Note × Nat :=
  if rand k * 100 < density then
    let ro := (⌊rand (k + 1) * 4⌋).toNat
    ([⟨gp ro, i, 8, 90⟩, ⟨gp (ro + 2), i, 8, 90⟩, ⟨gp (ro + 4), i, 8, 90⟩], k + 2)
  else ([], k + 1)

def chordGenLoop (density : ℚ) (gp : Nat → Int) (rand : Nat → ℚ) :
    Nat → Nat → Nat → List Note
  | 0, _, _ => []
  | r + 1, i, k =>
    (chordGenStep density gp rand i k).1 ++
      chordGenLoop density gp rand r (i + 8) (chordGenStep density gp rand i k).2

/-- One iteration of the lead loop (`i += 2`): with probability
`density%`, the degree cursor takes a random step in `[-2, 2]` and a
2-step note is emitted at `getPitch(Math.abs(currentDegree % 14))`,
where `%` is the JS truncated remainder (so `natAbs (d % 14) =
natAbs d % 14`). -/
def leadStep (density : ℚ) (gp : Nat → Int) (rand : Nat → ℚ) (i k : Nat)
    (d : Int) : Option Note × Nat × Int :=
  if rand k * 100 < density then
    let move := ⌊rand (k + 1) * 5⌋ - 2
    let d' := d + move
    (some ⟨gp (d'.natAbs % 14), i, 2, 100⟩, k + 2, d')
  else (none, k + 1, d)

def leadLoop (density : ℚ) (gp : Nat → Int) (rand : Nat → ℚ) :
    Nat → Nat → Nat → Int → List Note
  | 0, _, _, _ => []
  | r + 1, i, k, d =>
    (leadStep density gp rand i k d).1.toList ++
      leadLoop density gp rand r (i + 2) (leadStep density gp rand i k d).2.1
        (leadStep density gp rand i k d).2.2

/-- `generatePatternLogic(style, instrument, rootKey, lengthBars,
density)` with an explicit random stream.  `rootNote` is
`NOTES_NAMES.indexOf(rootKey) + 36` for the bass and `+ 60` otherwise;
`totalSteps = lengthBars * 16` with the loops running zero times when it
is not positive.  The chord loop runs `⌈totalSteps / 8⌉` times and the
lead loop `⌈totalSteps / 2⌉` times, matching `i += 8` / `i += 2`. -/
def generatePatternLogic (style instrument rootKey : String)
    (lengthBars : Int) (density : ℚ) (rand : Nat → ℚ) : List Note :=
  let rootNote : Int :=
    jsIndexOf NOTES_NAMES rootKey + (if instrument = "Basse" then 36 else 60)
  let scaleIntervals := styleScale style
  let gp := getPitch rootNote scaleIntervals
  let totalSteps := (lengthBars * 16).toNat
  if instrument = "Basse" then
    bassLoop density gp rand totalSteps 0 0
  else if instrument = "Piano / Accords" then
    chordGenLoop density gp rand ((totalSteps + 7) / 8) 0 0
  else
    leadLoop density gp rand ((totalSteps + 1) / 2) 0 0 0

/-- The pattern-branch export mapping (lines 716-721): velocity is
dropped; `startTick = startTime * 120`, `durationTicks = duration * 120`,
channel 0.  Pitch and duration are coerced to `Nat`; the generator only
produces non-negative values for genuine (`[0,1)`-valued) streams. -/
def patternExportNotes (gens : List Note) : List MidiNote :=
  gens.map fun n => ⟨n.pitch.toNat, n.startTime * 120, (n.duration * 120).toNat, 0⟩

def patternExportBytes (gens : List Note) : Option (List Nat) :=
  createMidiFile (patternExportNotes gens)

/-! ## Chord data path (`ChordItem`, `handleAddChord`, the chord branches
of `scheduleNote` and `handleExportMidi`) -/

structure ChordItem where
  id : Nat
  root : String
  type : String
  name : String
  deriving Repr, DecidableEq

/-- `CHORD_TYPES[chord.type]`: `none` models the `undefined` that the
following unguarded `.forEach` would throw on. -/
def lookupChordType (t : String) : Option (List Nat) :=
  CHORD_TYPES.lookup t

/-- `handleAddChord` (lines 680-688): appends a chord built from the
currently selected root and type, with `name` = "root type". -/
def handleAddChord (prog : List ChordItem) (newRoot newType : String)
    (id : Nat) : List ChordItem :=
  prog ++ [⟨id, newRoot, newType, newRoot ++ " " ++ newType⟩]

/-- The chord branch of `scheduleNote` (lines 586-615): nothing on a
non-empty progression off bar boundaries or when the progression is
empty; on a bar boundary, the pitches `basePitch + interval` of the
chord at `floor(step / 16) % progression.length` (the `if (chord)` guard
makes a missing list entry silent, but the `CHORD_TYPES` lookup is
unguarded, hence the `Option`). -/
def scheduleChordStep (prog : List ChordItem) (stepNumber : Nat) :
    Option (List Int) :=
  if prog.length = 0 then some []
  else if stepNumber % 16 = 0 then
    match prog.get? (stepNumber / 16 % prog.length) with
    | none => some []
    | some chord =>
      (lookupChordType chord.type).map fun intervals =>
        intervals.map fun iv => 60 + jsIndexOf NOTES_NAMES chord.root + iv
  else some []

/-- The chord slot of `handleExportMidi` for the chord at position
`index`: one note per interval, `startTick = index * 16 * 120`,
`durationTicks = 16 * 120`, channel 0. -/
def chordNotesAt (chord : ChordItem) (index : Nat) : Option (List MidiNote) :=
  (lookupChordType chord.type).map fun intervals =>
    intervals.map fun iv =>
      ⟨(60 + jsIndexOf NOTES_NAMES chord.root + iv).toNat, index * 16 * 120, 16 * 120, 0⟩

def chordExportGo : Nat → List ChordItem → Option (List MidiNote)
  | _, [] => some []
  | index, c :: cs => do
    let ns ← chordNotesAt c index
    let rest ← chordExportGo (index + 1) cs
    pure (ns ++ rest)

/-- The chord-branch note list of `handleExportMidi` (lines 724-742). -/
def chordExportNotes (prog : List ChordItem) : Option (List MidiNote) :=
  chordExportGo 0 prog

def chordExportBytes (prog : List ChordItem) : Option (List Nat) :=
  (chordExportNotes prog).bind createMidiFile

/-! ## Playback scheduler (`scheduler`, lines 619-643, and the playback
start effect, lines 646-660)

Audio-clock times are rationals.  The `while` loop is modelled with
fuel; the properties proved below hold for every fuel, i.e. for every
prefix of the loop. -/

inductive Tab
  | drums
  | pattern
  | chords
  deriving Repr, DecidableEq

/-- `let maxSteps = BARS * 16; if (tab === 'chords' && progression.length
> 0) maxSteps = progression.length * 16` (lines 634-637). -/
def maxStepsOf (tab : Tab) (progLen : Nat) : Nat :=
  if tab = Tab.chords ∧ 0 < progLen then progLen * 16 else BARS * 16

/-- `secondsPerStep = (60.0 / tempo) / 4`. -/
def secondsPerStep (tempo : ℚ) : ℚ := 60 / tempo / 4

/-- `scheduleAheadTime = 0.1`. -/
def scheduleAheadTime : ℚ := 1 / 10

/-- The 0.05 s lead-in added to the audio clock on playback start. -/
def leadIn : ℚ := 1 / 20

structure SchedState where
  nextNoteTime : ℚ
  step : Nat
  deriving Repr, DecidableEq

/-- One invocation of `scheduler` at audio-clock time `currentTime`:
emit `(step, nextNoteTime)` pairs while `nextNoteTime < currentTime +
scheduleAheadTime`, each time advancing `nextNoteTime` by
`secondsPerStep` and the cursor by one modulo `maxStepsOf`. -/
def schedPass (tempo : ℚ) (tab : Tab) (progLen : Nat) (currentTime : ℚ) :
    Nat → SchedState → List (Nat × ℚ) × SchedState
  | 0, s => ([], s)
  | fuel + 1, s =>
    if s.nextNoteTime < currentTime + scheduleAheadTime then
      let s' : SchedState :=
        ⟨s.nextNoteTime + secondsPerStep tempo, (s.step + 1) % maxStepsOf tab progLen⟩
      let rest := schedPass tempo tab progLen currentTime fuel s'
      ((s.step, s.nextNoteTime) :: rest.1, rest.2)
    else ([], s)

/-- A whole run: playback starts at audio-clock time `t0` (the effect
sets `nextNoteTime = currentTime + 0.05` and resets the cursor to 0),
then the re-arm mechanism invokes `scheduler` at the arbitrary clock
times `ctimes`.  Returns all emitted events in order and the final
state. -/
def schedRun (tempo : ℚ) (tab : Tab) (progLen : Nat) (t0 : ℚ)
    (ctimes : List ℚ) (fuel : Nat) : List (Nat × ℚ) × SchedState :=
  ctimes.foldl
    (fun acc ct =>
      let p := schedPass tempo tab progLen ct fuel acc.2
      (acc.1 ++ p.1, p.2))
    ([], ⟨t0 + leadIn, 0⟩)

/-! ## Concrete inputs used in counterexamples and witnesses -/

/-- The drum grid of the app (4 tracks × 64 steps) with a single active
cell: the Kick track at step 0. -/
def singleKickGrid : List (List Bool) :=
  (true :: List.replicate 63 false) :: List.replicate 3 (List.replicate 64 false)

/-- A concrete random stream (values in `[0, 1)`): `1/2` at position 3,
`0` elsewhere.  Feeding it to the bass generator makes the note emitted
at step 1 draw `1/2` for its duration, yielding `2 + ⌊1⌋ = 3`. -/
def streamHalfAt3 : Nat → ℚ := fun k => if k = 3 then 1 / 2 else 0

/-! ## Lemmas: VLQ round-trip -/

/-- The continuation-flagged bytes of the documented VLQ scheme for the
value `v`, most significant group first: empty for `v = 0`, otherwise
the groups of `v` each carrying the `0x80` bit. -/
def refCont (v : Nat) : List Nat :=
  if h : v = 0 then [] else refCont (v / 128) ++ [v % 128 + 128]
termination_by v
decreasing_by exact Nat.div_lt_self (Nat.pos_of_ne_zero h) (by norm_num)

/-- A byte list read as a little-endian number (first byte lowest):
the layout of `writeVLQ`'s `buffer`. -/
def packLE : List Nat → Nat
  | [] => 0
  | b :: bs => b + 256 * packLE bs

theorem packLE_append_singleton (bs : List Nat) (b : Nat) :
    packLE (bs ++ [b]) = packLE bs + b * 256 ^ bs.length := by
  induction bs with
  | nil => simp [packLE]
  | cons x xs ih => simp [packLE, ih]; ring

theorem refCont_mem (v : Nat) : ∀ b ∈ refCont v, 128 ≤ b ∧ b < 256 := by
  induction v using Nat.strong_induction_on with
  | _ v ih =>
    rw [refCont]
    split
    · simp
    · next h =>
      intro b hb
      rcases List.mem_append.1 hb with h' | h'
      · exact ih (v / 128) (Nat.div_lt_self (Nat.pos_of_ne_zero h) (by norm_num)) b h'
      · have : b = v % 128 + 128 := by simpa using h'
        have := Nat.mod_lt v (show 0 < 128 by norm_num)
        omega

theorem refCont_length_le : ∀ (k v : Nat), v < 128 ^ k → (refCont v).length ≤ k := by
  intro k
  induction k with
  | zero =>
    intro v hv
    have : v = 0 := by simpa using hv
    rw [this, refCont]
    simp
  | succ k ih =>
    intro v hv
    rw [refCont]
    split
    · simp
    · next h =>
      have hdiv : v / 128 < 128 ^ k := by
        rw [Nat.div_lt_iff_lt_mul (by norm_num)]
        calc v < 128 ^ (k + 1) := hv
        _ = 128 ^ k * 128 := by ring
      simpa using ih (v / 128) hdiv

theorem packLE_lt (bs : List Nat) (h : ∀ b ∈ bs, b < 256) :
    packLE bs < 256 ^ bs.length := by
  induction bs with
  | nil => simp [packLE]
  | cons x xs ih =>
    have hx := h x (by simp)
    have hxs := ih (fun b hb => h b (by simp [hb]))
    simp only [packLE, List.length_cons, pow_succ]
    calc x + 256 * packLE xs < 256 + 256 * packLE xs := by omega
    _ = 256 * (packLE xs + 1) := by ring
    _ ≤ 256 * 256 ^ xs.length := by
          exact Nat.mul_le_mul_left _ (by omega)
    _ = 256 ^ xs.length * 256 := by ring

/-- The build loop computes the little-endian packing of the
continuation bytes, with the original buffer on top, provided the fuel
covers the group count and no int32 overflow occurs. -/
theorem vlqBuildAux_eq (v : Nat) : ∀ (buf fuel : Nat),
    (refCont (v / 128)).length ≤ fuel →
    (buf + 1) * 256 ^ (refCont (v / 128)).length ≤ 2 ^ 31 →
    vlqBuildAux fuel v buf =
      packLE (refCont (v / 128)) + buf * 256 ^ (refCont (v / 128)).length := by
  induction v using Nat.strong_induction_on with
  | _ v ih =>
    intro buf fuel hfuel hbound
    by_cases h0 : v / 128 = 0
    · have hnil : refCont (v / 128) = [] := by rw [h0, refCont]; simp
      rw [hnil] at hbound ⊢
      simp only [packLE, List.length_nil, pow_zero, Nat.mul_one, Nat.zero_add]
      cases fuel with
      | zero => rfl
      | succ f => simp [vlqBuildAux, h0]
    · have hcont : refCont (v / 128) = refCont (v / 128 / 128) ++ [v / 128 % 128 + 128] := by
        rw [refCont]; simp [h0]
      have hlen : (refCont (v / 128)).length = (refCont (v / 128 / 128)).length + 1 := by
        simp [hcont]
      rw [hlen] at hfuel hbound
      obtain ⟨f, rfl⟩ : ∃ f, fuel = f + 1 := ⟨fuel - 1, by omega⟩
      have hv128 : 128 ≤ v := by
        by_contra hlt
        exact h0 (Nat.div_eq_of_lt (by omega))
      have h256 : (256 : Nat) ≤ 256 ^ ((refCont (v / 128 / 128)).length + 1) := by
        calc (256 : Nat) = 256 ^ 1 := by norm_num
        _ ≤ 256 ^ ((refCont (v / 128 / 128)).length + 1) :=
            Nat.pow_le_pow_right (by norm_num) (by omega)
      have hshl : jsShl8 buf = buf * 256 := by
        have hb : (buf + 1) * 256 ≤ 2 ^ 31 :=
          le_trans (Nat.mul_le_mul_left _ h256) hbound
        unfold jsShl8
        apply Nat.mod_eq_of_lt
        have : buf * 256 < (buf + 1) * 256 := by omega
        omega
      have hstep : vlqBuildAux (f + 1) v buf =
          vlqBuildAux f (v / 128) (buf * 256 + (v / 128 % 128 + 128)) := by
        simp [vlqBuildAux, h0, hshl]
      have hmodlt := Nat.mod_lt (v / 128) (show 0 < 128 by norm_num)
      have hbuf' : (buf * 256 + (v / 128 % 128 + 128)) + 1 ≤ (buf + 1) * 256 := by omega
      have hbound' : ((buf * 256 + (v / 128 % 128 + 128)) + 1) *
          256 ^ (refCont (v / 128 / 128)).length ≤ 2 ^ 31 := by
        calc ((buf * 256 + (v / 128 % 128 + 128)) + 1) *
            256 ^ (refCont (v / 128 / 128)).length
            ≤ ((buf + 1) * 256) * 256 ^ (refCont (v / 128 / 128)).length :=
              Nat.mul_le_mul_right _ hbuf'
        _ = (buf + 1) * 256 ^ ((refCont (v / 128 / 128)).length + 1) := by ring
        _ ≤ 2 ^ 31 := hbound
      rw [hstep,
        ih (v / 128) (Nat.div_lt_self (by omega) (by norm_num)) _ f (by omega) hbound']
      rw [hcont, packLE_append_singleton]
      simp only [List.length_append, List.length_singleton]
      ring

/-- The emission loop reads the packed bytes back in order, provided
every byte but the last carries the continuation bit, the last does
not, the packed value stays below `2 ^ 31` (no sign extension), and the
fuel covers the byte count. -/
theorem vlqEmit_eq (front : List Nat) (b : Nat) : ∀ fuel : Nat,
    front.length < fuel →
    (∀ x ∈ front, 128 ≤ x ∧ x < 256) →
    b < 128 →
    packLE (front ++ [b]) < 2 ^ 31 →
    vlqEmit fuel (packLE (front ++ [b])) = some (front ++ [b]) := by
  induction front with
  | nil =>
    intro fuel hfuel _ hb _
    obtain ⟨f, rfl⟩ : ∃ f, fuel = f + 1 := ⟨fuel - 1, by omega⟩
    have hpck : packLE ([] ++ [b]) = b := by simp [packLE]
    rw [hpck]
    have hunf : vlqEmit (f + 1) b =
        if 128 ≤ b % 256 then (vlqEmit f (jsSar8 b)).map ((b % 256) :: ·)
        else some [b % 256] := rfl
    rw [hunf, Nat.mod_eq_of_lt (show b < 256 by omega), if_neg (by omega)]
    simp
  | cons x xs ih =>
    intro fuel hfuel hmem hb hlt
    obtain ⟨f, rfl⟩ : ∃ f, fuel = f + 1 := ⟨fuel - 1, by omega⟩
    have hx := hmem x (by simp)
    have hpack : packLE ((x :: xs) ++ [b]) = x + 256 * packLE (xs ++ [b]) := by
      simp [packLE]
    have hbyte : (x + 256 * packLE (xs ++ [b])) % 256 = x := by omega
    have hdiv : (x + 256 * packLE (xs ++ [b])) / 256 = packLE (xs ++ [b]) := by omega
    have hlt' : packLE (xs ++ [b]) < 2 ^ 31 := by
      rw [hpack] at hlt; omega
    have hsar : jsSar8 (packLE ((x :: xs) ++ [b])) = packLE (xs ++ [b]) := by
      rw [hpack]
      unfold jsSar8
      rw [if_pos (by rw [← hpack]; exact hlt)]
      exact hdiv
    rw [show vlqEmit (f + 1) (packLE ((x :: xs) ++ [b])) =
        if 128 ≤ packLE ((x :: xs) ++ [b]) % 256 then
          (vlqEmit f (jsSar8 (packLE ((x :: xs) ++ [b])))).map
            ((packLE ((x :: xs) ++ [b]) % 256) :: ·)
        else some [packLE ((x :: xs) ++ [b]) % 256] from rfl]
    rw [hpack, hbyte, ← hpack, hsar]
    rw [if_pos hx.1]
    rw [ih f (by simpa using hfuel) (fun y hy => hmem y (by simp [hy])) hb hlt']
    simp

/-- For `n < 2 ^ 28` the writer terminates and produces exactly the
documented big-endian continuation-flagged encoding. -/
theorem writeVLQ_eq_ref (n : Nat) (hn : n < 2 ^ 28) :
    writeVLQ n = some (refCont (n / 128) ++ [n % 128]) := by
  have hL : (refCont (n / 128)).length ≤ 3 :=
    refCont_length_le 3 (n / 128) (by omega)
  have hmem := refCont_mem (n / 128)
  have h256L : 256 ^ (refCont (n / 128)).length ≤ 2 ^ 24 := by
    calc 256 ^ (refCont (n / 128)).length ≤ 256 ^ 3 :=
          Nat.pow_le_pow_right (by norm_num) hL
    _ = 2 ^ 24 := by norm_num
  have hpack : packLE (refCont (n / 128) ++ [n % 128]) < 2 ^ 31 := by
    rw [packLE_append_singleton]
    have h1 : packLE (refCont (n / 128)) < 256 ^ (refCont (n / 128)).length :=
      packLE_lt _ (fun b hb => (hmem b hb).2)
    have h2 : n % 128 * 256 ^ (refCont (n / 128)).length ≤ 127 * 2 ^ 24 :=
      Nat.mul_le_mul (by omega) h256L
    have := le_trans h1 h256L
    omega
  unfold writeVLQ
  rw [vlqBuildAux_eq n (n % 128) 8 (by omega)
    (by
      calc (n % 128 + 1) * 256 ^ (refCont (n / 128)).length ≤ 128 * 2 ^ 24 :=
            Nat.mul_le_mul (by omega) h256L
      _ = 2 ^ 31 := by norm_num)]
  rw [← packLE_append_singleton]
  exact vlqEmit_eq _ _ 8 (by omega) hmem (by omega) hpack

theorem decode_refCont (v : Nat) : ∀ acc : Nat,
    List.foldl (fun acc b => acc * 128 + b % 128) acc (refCont v) =
      acc * 128 ^ (refCont v).length + v := by
  induction v using Nat.strong_induction_on with
  | _ v ih =>
    intro acc
    by_cases h0 : v = 0
    · rw [h0, refCont]; simp
    · have hcont : refCont v = refCont (v / 128) ++ [v % 128 + 128] := by
        rw [refCont]; simp [h0]
      rw [hcont, List.foldl_append,
        ih (v / 128) (Nat.div_lt_self (Nat.pos_of_ne_zero h0) (by norm_num)) acc]
      have hmod : (v % 128 + 128) % 128 = v % 128 := by omega
      simp only [List.foldl_cons, List.foldl_nil, hmod, List.length_append,
        List.length_singleton]
      have := Nat.div_add_mod v 128
      ring_nf
      omega

theorem decodeVLQ_ref (n : Nat) :
    decodeVLQ (refCont (n / 128) ++ [n % 128]) = n := by
  unfold decodeVLQ
  rw [List.foldl_append, decode_refCont (n / 128) 0]
  have hmod : n % 128 % 128 = n % 128 := by omega
  simp only [List.foldl_cons, List.foldl_nil, hmod, Nat.zero_mul, Nat.zero_add]
  omega

/-- Claim C4, amended: decoding the writer's VLQ encoding per the
documented scheme yields the value back for every `n < 2 ^ 28` (the
values on which the int32 emission loop terminates); encoding 0 yields
exactly `[0x00]` and encoding 300 exactly `[0x82, 0x2C]`. -/
theorem claim_C4 :
    (∀ n : Nat, n < 2 ^ 28 → (writeVLQ n).map decodeVLQ = some n)
    ∧ writeVLQ 0 = some [0x00] ∧ writeVLQ 300 = some [0x82, 0x2C] := by
  refine ⟨fun n hn => ?_, by decide, by decide⟩
  rw [writeVLQ_eq_ref n hn]
  simp [decodeVLQ_ref]

theorem claim_C4_witness :
    (300 : Nat) < 2 ^ 28 ∧ (writeVLQ 300).map decodeVLQ = some 300 :=
  ⟨by norm_num, claim_C4.1 300 (by norm_num)⟩

/-- Claim C4 as stated ("for every non-negative integer") fails at
`n = 2 ^ 28`: the value needs five 7-bit groups, the int32 `buffer`
overflows into a negative bit pattern (`0x80808081`), and the
sign-propagating `buffer >>= 8` of the emission loop then yields bytes
with the continuation bit forever — the loop never terminates, so the
writer produces no output at all (modelled as `none`). -/
theorem claim_C4_counterexample : writeVLQ (2 ^ 28) = none := by decide

/-- Claim C5: every byte sequence produced by `createMidiFile` begins
with exactly `4D 54 68 64 00 00 00 06`, followed by the big-endian
16-bit format (1), track count (1) and division (480 = `01 E0`) used
for every export mode. -/
theorem claim_C5 (notes : List MidiNote) (bs : List Nat)
    (h : createMidiFile notes = some bs) :
    bs.take 14 = [0x4D, 0x54, 0x68, 0x64, 0x00, 0x00, 0x00, 0x06,
      0x00, 0x01, 0x00, 0x01, 0x01, 0xE0] := by
  unfold createMidiFile at h
  cases htd : trackData notes with
  | none => rw [htd] at h; exact absurd h (by simp)
  | some td =>
    rw [htd] at h
    have hb : bs = headerBytes ++ [0x4D, 0x54, 0x72, 0x6B] ++ writeInt32 td.length ++ td := by
      simpa [eq_comm] using h
    subst hb
    rfl

theorem claim_C5_witness :
    ([77, 84, 104, 100, 0, 0, 0, 6, 0, 1, 0, 1, 1, 224,
      77, 84, 114, 107, 0, 0, 0, 4, 0, 255, 47, 0] : List Nat).take 14 =
      [0x4D, 0x54, 0x68, 0x64, 0x00, 0x00, 0x00, 0x06,
       0x00, 0x01, 0x00, 0x01, 0x01, 0xE0] :=
  claim_C5 [] _ (by decide)

/-- Claim C6, amended: for the drum export with a single active Kick
cell at step 0, the file is byte-exact: one note-on `99 24 64` at tick 0
(VLQ delta `00`) and one note-off `89 24 00` at tick 60 — not 59 — (VLQ
delta `3C`, the 60-tick duration), then the End-of-Track `00 FF 2F 00`. -/
theorem claim_C6 :
    drumExportBytes singleKickGrid = some
      ([0x4D, 0x54, 0x68, 0x64, 0x00, 0x00, 0x00, 0x06,
        0x00, 0x01, 0x00, 0x01, 0x01, 0xE0] ++
       [0x4D, 0x54, 0x72, 0x6B, 0x00, 0x00, 0x00, 0x0C] ++
       [0x00, 0x99, 0x24, 0x64, 0x3C, 0x89, 0x24, 0x00, 0x00, 0xFF, 0x2F, 0x00]) := by
  decide

/-- Claim C6 as stated fails: the note-off of the single Kick hit is at
tick `startTick + durationTicks = 0 + 60 = 60`, not at tick 59 — there
is no event at tick 59. -/
theorem claim_C6_counterexample :
    midiEvents (drumNotes singleKickGrid) =
      [⟨0, true, 36, 9⟩, ⟨60, false, 36, 9⟩] ∧ (60 : Nat) ≠ 59 :=
  ⟨by decide, by decide⟩

/-! ## Lemmas: encoder channels and velocities (claim C2) -/

theorem drumNotes_channel (grid : List (List Bool)) :
    ∀ n ∈ drumNotes grid, n.channel = 9 := by
  intro n hn
  simp only [drumNotes, List.mem_flatMap] at hn
  obtain ⟨⟨tr, row⟩, _, hmem⟩ := hn
  simp only [rowNotes, List.mem_filterMap, List.mem_range] at hmem
  obtain ⟨step, _, hstep⟩ := hmem
  split at hstep
  · cases hstep; rfl
  · cases hstep

theorem chordExportGo_channel : ∀ (prog : List ChordItem) (idx : Nat)
    (ns : List MidiNote), chordExportGo idx prog = some ns →
    ∀ n ∈ ns, n.channel = 0 := by
  intro prog
  induction prog with
  | nil =>
    intro idx ns h n hn
    simp only [chordExportGo] at h
    cases h
    cases hn
  | cons c cs ih =>
    intro idx ns h n hn
    simp only [chordExportGo] at h
    cases hca : chordNotesAt c idx with
    | none => rw [hca] at h; cases h
    | some cns =>
      rw [hca] at h
      cases hgo : chordExportGo (idx + 1) cs with
      | none => rw [hgo] at h; cases h
      | some rest =>
        rw [hgo] at h
        have hns : ns = cns ++ rest := by
          simpa [eq_comm] using h
        subst hns
        rcases List.mem_append.1 hn with hmem | hmem
        · simp only [chordNotesAt] at hca
          cases hl : lookupChordType c.type with
          | none => rw [hl] at hca; cases hca
          | some ivs =>
            rw [hl] at hca
            have : cns = ivs.map fun iv =>
                (⟨(60 + jsIndexOf NOTES_NAMES c.root + iv).toNat,
                  idx * 16 * 120, 16 * 120, 0⟩ : MidiNote) := by
              simpa [eq_comm] using hca
            subst this
            obtain ⟨iv, _, rfl⟩ := List.mem_map.1 hmem
            rfl
        · exact ih (idx + 1) rest hgo n hmem

/-- Claim C2, amended: drum-grid notes are exported on channel 9 and
melodic/chord notes on channel 0, but the writer hardcodes every
note-on velocity byte to 100 and every note-off velocity byte to 0 —
the note's own `velocity` field is dropped by the export mapping and
never reaches the file.  The last conjunct exhibits the hardcoded `100`
(byte 25 of the file: header 14 bytes, `MTrk` + length 8 bytes, delta
`00`, status `90`, pitch, then the note-on velocity byte). -/
theorem claim_C2 :
    (∀ grid : List (List Bool), ∀ n ∈ drumNotes grid, n.channel = 9)
    ∧ (∀ gens : List Note, ∀ n ∈ patternExportNotes gens, n.channel = 0)
    ∧ (∀ (prog : List ChordItem) (ns : List MidiNote),
        chordExportNotes prog = some ns → ∀ n ∈ ns, n.channel = 0)
    ∧ (∀ (gens : List Note) (f : Note → Nat),
        patternExportBytes (gens.map fun n => ⟨n.pitch, n.startTime, n.duration, f n⟩) =
          patternExportBytes gens)
    ∧ (patternExportBytes [⟨60, 0, 1, 90⟩]).bind (fun l => l.get? 25) = some 100 := by
  refine ⟨drumNotes_channel, ?_, fun prog ns h => chordExportGo_channel prog 0 ns h,
    fun gens f => by
      unfold patternExportBytes patternExportNotes
      rw [List.map_map]
      rfl, by decide⟩
  intro gens n hn
  obtain ⟨m, _, rfl⟩ := List.mem_map.1 hn
  rfl

theorem claim_C2_witness :
    (∀ n ∈ drumNotes singleKickGrid, n.channel = 9)
    ∧ (∀ n ∈ ([⟨60, 0, 1920, 0⟩, ⟨63, 0, 1920, 0⟩, ⟨67, 0, 1920, 0⟩,
        ⟨70, 0, 1920, 0⟩] : List MidiNote), n.channel = 0) :=
  ⟨claim_C2.1 singleKickGrid,
   claim_C2.2.2.1 [⟨1, "C", "m7", "C m7"⟩] _ (by decide)⟩

/-- Claim C2 as stated fails on the velocity half: a generated note
with `velocity = 90` is encoded with note-on velocity byte `0x64 = 100`
(the hardcoded writer constant), not 90. -/
theorem claim_C2_counterexample :
    patternExportBytes [⟨60, 0, 1, 90⟩] = some
      ([0x4D, 0x54, 0x68, 0x64, 0x00, 0x00, 0x00, 0x06,
        0x00, 0x01, 0x00, 0x01, 0x01, 0xE0] ++
       [0x4D, 0x54, 0x72, 0x6B, 0x00, 0x00, 0x00, 0x0C] ++
       [0x00, 0x90, 0x3C, 0x64, 0x78, 0x80, 0x3C, 0x00, 0x00, 0xFF, 0x2F, 0x00])
    ∧ (0x64 : Nat) ≠ 90 :=
  ⟨by decide, by decide⟩

/-! ## Lemmas: the scheduler loop (claims C1 and C3) -/

/-- Cursor behavior of one `scheduler` invocation: the first emission
(if any) carries the incoming cursor, consecutive emissions differ by
the `(step + 1) % maxSteps` advance, the final cursor is the advance of
the last emission, and an invocation that emits nothing leaves the
state untouched. -/
theorem schedPass_spec (tempo : ℚ) (tab : Tab) (progLen : Nat) (ct : ℚ) :
    ∀ (fuel : Nat) (s : SchedState),
      (∀ p ∈ (schedPass tempo tab progLen ct fuel s).1.head?, p.1 = s.step)
      ∧ List.Chain' (fun a b : Nat × ℚ => b.1 = (a.1 + 1) % maxStepsOf tab progLen)
          (schedPass tempo tab progLen ct fuel s).1
      ∧ (∀ p ∈ (schedPass tempo tab progLen ct fuel s).1.getLast?,
          (schedPass tempo tab progLen ct fuel s).2.step =
            (p.1 + 1) % maxStepsOf tab progLen)
      ∧ ((schedPass tempo tab progLen ct fuel s).1 = [] →
          (schedPass tempo tab progLen ct fuel s).2 = s) := by
  intro fuel
  induction fuel with
  | zero => intro s; simp [schedPass]
  | succ f ih =>
    intro s
    by_cases hc : s.nextNoteTime < ct + scheduleAheadTime
    · obtain ⟨ihA, ihB, ihC, ihD⟩ := ih
        ⟨s.nextNoteTime + secondsPerStep tempo, (s.step + 1) % maxStepsOf tab progLen⟩
      have hunf : schedPass tempo tab progLen ct (f + 1) s =
          ((s.step, s.nextNoteTime) ::
            (schedPass tempo tab progLen ct f
              ⟨s.nextNoteTime + secondsPerStep tempo,
               (s.step + 1) % maxStepsOf tab progLen⟩).1,
           (schedPass tempo tab progLen ct f
              ⟨s.nextNoteTime + secondsPerStep tempo,
               (s.step + 1) % maxStepsOf tab progLen⟩).2) := by
        simp [schedPass, hc]
      rw [hunf]
      refine ⟨?_, ?_, ?_, ?_⟩
      · intro p hp
        simp only [List.head?_cons, Option.mem_def, Option.some.injEq] at hp
        rw [← hp]
      · refine List.chain'_cons'.2 ⟨?_, ihB⟩
        intro y hy
        simpa using ihA y hy
      · intro p hp
        cases htail : (schedPass tempo tab progLen ct f
            ⟨s.nextNoteTime + secondsPerStep tempo,
             (s.step + 1) % maxStepsOf tab progLen⟩).1 with
        | nil =>
          rw [htail] at hp
          simp only [List.getLast?_singleton, Option.mem_def, Option.some.injEq] at hp
          have hfin := ihD htail
          rw [hfin, ← hp]
        | cons y ys =>
          rw [htail, List.getLast?_cons_cons] at hp
          exact ihC p (by rw [htail]; exact hp)
      · intro h; cases h
    · have hunf : schedPass tempo tab progLen ct (f + 1) s = ([], s) := by
        simp [schedPass, hc]
      rw [hunf]
      simp

/-- Timing behavior of one `scheduler` invocation: emission times form
the arithmetic progression continuing from the incoming `nextNoteTime`,
and the outgoing `nextNoteTime` has advanced by one `secondsPerStep`
per emission — independently of `currentTime`. -/
theorem schedPass_times (tempo : ℚ) (tab : Tab) (progLen : Nat) (ct : ℚ) :
    ∀ (fuel : Nat) (s : SchedState),
      ((schedPass tempo tab progLen ct fuel s).2.nextNoteTime =
        s.nextNoteTime +
          (schedPass tempo tab progLen ct fuel s).1.length * secondsPerStep tempo)
      ∧ ∀ (i : Nat) (hi : i < (schedPass tempo tab progLen ct fuel s).1.length),
          ((schedPass tempo tab progLen ct fuel s).1.get ⟨i, hi⟩).2 =
            s.nextNoteTime + i * secondsPerStep tempo := by
  intro fuel
  induction fuel with
  | zero => intro s; simp [schedPass]
  | succ f ih =>
    intro s
    by_cases hc : s.nextNoteTime < ct + scheduleAheadTime
    · obtain ⟨ihT, ihG⟩ := ih
        ⟨s.nextNoteTime + secondsPerStep tempo, (s.step + 1) % maxStepsOf tab progLen⟩
      have hunf : schedPass tempo tab progLen ct (f + 1) s =
          ((s.step, s.nextNoteTime) ::
            (schedPass tempo tab progLen ct f
              ⟨s.nextNoteTime + secondsPerStep tempo,
               (s.step + 1) % maxStepsOf tab progLen⟩).1,
           (schedPass tempo tab progLen ct f
              ⟨s.nextNoteTime + secondsPerStep tempo,
               (s.step + 1) % maxStepsOf tab progLen⟩).2) := by
        simp [schedPass, hc]
      rw [hunf]
      constructor
      · rw [ihT]
        simp only [List.length_cons]
        push_cast
        ring
      · intro i hi
        cases i with
        | zero => simp
        | succ j =>
          simp only [List.length_cons, Nat.succ_lt_succ_iff] at hi
          have := ihG j hi
          simp only [List.get_cons_succ, this]
          push_cast
          ring
    · have hunf : schedPass tempo tab progLen ct (f + 1) s = ([], s) := by
        simp [schedPass, hc]
      rw [hunf]
      simp

/-- Run-level cursor invariant: starting from any accumulator whose
events are chained and whose state cursor is the advance of the last
event, the whole fold over the re-arm invocation times stays chained. -/
theorem schedRun_go_chain (tempo : ℚ) (tab : Tab) (progLen : Nat) (fuel : Nat) :
    ∀ (ctimes : List ℚ) (acc : List (Nat × ℚ) × SchedState),
      List.Chain' (fun a b : Nat × ℚ => b.1 = (a.1 + 1) % maxStepsOf tab progLen) acc.1 →
      (∀ p ∈ acc.1.getLast?, acc.2.step = (p.1 + 1) % maxStepsOf tab progLen) →
      List.Chain' (fun a b : Nat × ℚ => b.1 = (a.1 + 1) % maxStepsOf tab progLen)
        (ctimes.foldl
          (fun acc ct =>
            let p := schedPass tempo tab progLen ct fuel acc.2
            (acc.1 ++ p.1, p.2))
          acc).1 := by
  intro ctimes
  induction ctimes with
  | nil => intro acc hch _; exact hch
  | cons ct cts ih =>
    intro acc hch hlast
    obtain ⟨pA, pB, pC, pD⟩ := schedPass_spec tempo tab progLen ct fuel acc.2
    simp only [List.foldl_cons]
    apply ih
    · refine List.chain'_append.2 ⟨hch, pB, ?_⟩
      intro x hx y hy
      rw [pA y hy, hlast x hx]
    · intro p hp
      cases hevs : (schedPass tempo tab progLen ct fuel acc.2).1 with
      | nil =>
        rw [hevs, List.append_nil] at hp
        rw [pD hevs]
        exact hlast p hp
      | cons e es =>
        rw [hevs] at hp
        rw [List.getLast?_append_of_ne_nil _ (by simp)] at hp
        exact pC p (by rw [hevs]; exact hp)

/-- Run-level timing invariant: if the accumulated events already form
the arithmetic progression from `base` and the state clock sits at its
end, both facts persist through the fold. -/
theorem schedRun_go_times (tempo : ℚ) (tab : Tab) (progLen : Nat) (fuel : Nat) :
    ∀ (ctimes : List ℚ) (acc : List (Nat × ℚ) × SchedState) (base : ℚ),
      acc.2.nextNoteTime = base + acc.1.length * secondsPerStep tempo →
      (∀ (i : Nat) (hi : i < acc.1.length),
        (acc.1.get ⟨i, hi⟩).2 = base + i * secondsPerStep tempo) →
      ((ctimes.foldl
          (fun acc ct =>
            let p := schedPass tempo tab progLen ct fuel acc.2
            (acc.1 ++ p.1, p.2))
          acc).2.nextNoteTime = base +
        (ctimes.foldl
          (fun acc ct =>
            let p := schedPass tempo tab progLen ct fuel acc.2
            (acc.1 ++ p.1, p.2))
          acc).1.length * secondsPerStep tempo)
      ∧ ∀ (i : Nat) (hi : i < (ctimes.foldl
          (fun acc ct =>
            let p := schedPass tempo tab progLen ct fuel acc.2
            (acc.1 ++ p.1, p.2))
          acc).1.length),
          ((ctimes.foldl
            (fun acc ct =>
              let p := schedPass tempo tab progLen ct fuel acc.2
              (acc.1 ++ p.1, p.2))
            acc).1.get ⟨i, hi⟩).2 = base + i * secondsPerStep tempo := by
  intro ctimes
  induction ctimes with
  | nil => intro acc base hT hG; exact ⟨hT, hG⟩
  | cons ct cts ih =>
    intro acc base hT hG
    obtain ⟨pT, pG⟩ := schedPass_times tempo tab progLen ct fuel acc.2
    simp only [List.foldl_cons]
    apply ih
    · rw [pT, hT]
      simp only [List.length_append]
      push_cast
      ring
    · intro i hi
      simp only [List.length_append] at hi
      by_cases hi1 : i < acc.1.length
      · rw [List.get_eq_getElem, List.getElem_append_left hi1]
        have hg := hG i hi1
        rw [List.get_eq_getElem] at hg
        exact hg
      · have hle : acc.1.length ≤ i := Nat.le_of_not_lt hi1
        rw [List.get_eq_getElem, List.getElem_append_right hle]
        have hg := pG (i - acc.1.length) (by omega)
        rw [List.get_eq_getElem] at hg
        rw [hg, hT]
        have : ((i - acc.1.length : Nat) : ℚ) = (i : ℚ) - (acc.1.length : ℚ) := by
          push_cast [Nat.cast_sub hle]
          ring
        rw [this]
        ring

/-- Claim C1, amended: while Running, after each event emission the
step cursor advances by one modulo `maxSteps`, where `maxSteps` is
`progressionLength × 16` in chord mode with a non-empty progression and
`BARS × 16 = 64` in every other case — drum mode, pattern mode (the
`scheduler` ignores `lengthBars`), and chord mode with an empty
progression (which falls back to 64, not 16). -/
theorem claim_C1 :
    (∀ (tempo t0 : ℚ) (tab : Tab) (progLen : Nat) (ctimes : List ℚ) (fuel : Nat),
      List.Chain' (fun a b : Nat × ℚ => b.1 = (a.1 + 1) % maxStepsOf tab progLen)
        (schedRun tempo tab progLen t0 ctimes fuel).1)
    ∧ (∀ progLen, maxStepsOf Tab.drums progLen = BARS * 16)
    ∧ (∀ progLen, maxStepsOf Tab.pattern progLen = BARS * 16)
    ∧ (∀ progLen, 0 < progLen → maxStepsOf Tab.chords progLen = progLen * 16)
    ∧ maxStepsOf Tab.chords 0 = BARS * 16
    ∧ BARS * 16 = 64 := by
  refine ⟨?_, ?_, ?_, ?_, by decide, by decide⟩
  · intro tempo t0 tab progLen ctimes fuel
    unfold schedRun
    apply schedRun_go_chain
    · exact List.chain'_nil
    · intro p hp; cases hp
  · intro progLen
    simp [maxStepsOf]
  · intro progLen
    simp [maxStepsOf]
  · intro progLen hp
    simp [maxStepsOf, hp]

theorem claim_C1_witness :
    (List.Chain' (fun a b : Nat × ℚ => b.1 = (a.1 + 1) % maxStepsOf Tab.drums 0)
      (schedRun 120 Tab.drums 0 0 [0] 2).1)
    ∧ maxStepsOf Tab.chords 3 = 3 * 16 :=
  ⟨claim_C1.1 120 0 Tab.drums 0 [0] 2, claim_C1.2.2.2.1 3 (by norm_num)⟩

/-- Claim C1 as stated fails in pattern mode: with `lengthBars = 1` the
claim demands the cursor advance modulo `1 × 16`, i.e. from 15 back to
0, but `scheduler` ignores `lengthBars` and advances modulo
`BARS × 16 = 64`: one emission from cursor 15 leaves the cursor at 16. -/
theorem claim_C1_counterexample :
    (schedPass 120 Tab.pattern 0 0 1 ⟨0, 15⟩).1 = [(15, 0)]
    ∧ (schedPass 120 Tab.pattern 0 0 1 ⟨0, 15⟩).2.step = 16
    ∧ (15 + 1) % (1 * 16) = 0
    ∧ (16 : Nat) ≠ 0 := by
  have h : schedPass 120 Tab.pattern 0 0 1 ⟨0, 15⟩ = ([(15, 0)], ⟨1 / 8, 16⟩) := by
    norm_num [schedPass, maxStepsOf, scheduleAheadTime, secondsPerStep, BARS]
  exact ⟨by rw [h], by rw [h], by decide, by decide⟩

/-- Claim C3: in any run started at audio-clock time `t0` with the
tempo held constant, the emission time of the N-th scheduled step is
exactly `(t0 + leadIn) + N × secondsPerStep`, for every sequence of
re-arm invocation times (no drift from re-arm jitter); moreover
`leadIn = 0.05` and at tempo 120 `secondsPerStep` is exactly `0.125`. -/
theorem claim_C3 :
    (∀ (tempo t0 : ℚ) (tab : Tab) (progLen : Nat) (ctimes : List ℚ) (fuel : Nat)
      (N : Nat) (p : Nat × ℚ),
      (schedRun tempo tab progLen t0 ctimes fuel).1.get? N = some p →
      p.2 = (t0 + leadIn) + N * secondsPerStep tempo)
    ∧ secondsPerStep 120 = 1 / 8
    ∧ leadIn = 1 / 20 := by
  refine ⟨?_, by norm_num [secondsPerStep], rfl⟩
  intro tempo t0 tab progLen ctimes fuel N p hp
  obtain ⟨hN, hget⟩ := List.get?_eq_some.1 hp
  obtain ⟨-, hG⟩ := schedRun_go_times tempo tab progLen fuel ctimes
    ([], ⟨t0 + leadIn, 0⟩) (t0 + leadIn) (by simp) (by intro i hi; cases hi)
  rw [← hget]
  exact hG N hN

theorem claim_C3_witness :
    ((0 : Nat), (1 / 20 : ℚ)).2 = ((0 : ℚ) + leadIn) + (0 : Nat) * secondsPerStep 120 :=
  claim_C3.1 120 0 Tab.drums 0 [0] 1 0 (0, 1 / 20)
    (by norm_num [schedRun, schedPass, leadIn, scheduleAheadTime, secondsPerStep,
      maxStepsOf, BARS])

/-! ## Lemmas: the pattern generator (claims C7, C8, C9) -/

/-- Every scale in `SCALES` starts at interval 0, so scale degree 0 of
any style is the bare root. -/
theorem styleScale_zero (style : String) : (styleScale style).getD 0 0 = 0 := by
  unfold styleScale
  split_ifs <;> rfl

theorem getPitch_zero (rootNote : Int) (style : String) :
    getPitch rootNote (styleScale style) 0 = rootNote := by
  unfold getPitch
  rw [styleScale_zero]
  norm_num

/-- `[0,2,4,6,7][j]` with the out-of-range default 0 always lands in the
set `{0,2,4,6,7}`. -/
theorem intervalSet_getD_mem (j : Nat) :
    ([0, 2, 4, 6, 7] : List Nat).getD j 0 ∈ ([0, 2, 4, 6, 7] : List Nat) := by
  rcases j with _ | _ | _ | _ | _ | j
  · decide
  · decide
  · decide
  · decide
  · decide
  · simp [List.getD]

/-- The bass loop puts a root note (`getPitch 0`) at every bar-start
step it visits, whatever the random stream supplies. -/
theorem bassLoop_bar_start (density : ℚ) (gp : Nat → Int) (rand : Nat → ℚ) :
    ∀ (r i0 k i : Nat), i0 ≤ i → i < i0 + r → i % 16 = 0 →
      ∃ d, (⟨gp 0, i, d, 100⟩ : Note) ∈ bassLoop density gp rand r i0 k := by
  intro r
  induction r with
  | zero => intro i0 k i h1 h2 _; omega
  | succ rr ih =>
    intro i0 k i h1 h2 hbar
    by_cases heq : i = i0
    · subst heq
      refine ⟨2 + ⌊rand k * 2⌋, ?_⟩
      have hstep : bassStep density gp rand i k =
          (some ⟨gp 0, i, 2 + ⌊rand k * 2⌋, 100⟩, k + 1) := by
        simp [bassStep, hbar]
      show _ ∈ (bassStep density gp rand i k).1.toList ++
        bassLoop density gp rand rr (i + 1) (bassStep density gp rand i k).2
      rw [hstep]
      simp
    · obtain ⟨d, hd⟩ := ih (i0 + 1) (bassStep density gp rand i0 k).2 i
        (by omega) (by omega) hbar
      exact ⟨d, List.mem_append_right _ hd⟩

/-- Any note the bass loop emits at a step that is neither a bar start
nor the third beat comes from the density branch: its pitch is one of
the five consonant scale degrees, its duration is 2 or 3 sixteenth
steps (for a genuine `[0,1)`-valued stream), and its velocity is 100. -/
theorem bassLoop_offbeat (density : ℚ) (gp : Nat → Int) (rand : Nat → ℚ)
    (hrand : ∀ k, 0 ≤ rand k ∧ rand k < 1) :
    ∀ (r i0 k : Nat) (n : Note), n ∈ bassLoop density gp rand r i0 k →
      n.startTime % 16 ≠ 0 → n.startTime % 16 ≠ 8 →
      (∃ deg ∈ ([0, 2, 4, 6, 7] : List Nat), n.pitch = gp deg)
      ∧ (n.duration = 2 ∨ n.duration = 3) ∧ n.velocity = 100 := by
  have hdur : ∀ k : Nat, 2 + ⌊rand k * 2⌋ = 2 ∨ 2 + ⌊rand k * 2⌋ = 3 := by
    intro k
    have h0 : (0 : ℤ) ≤ ⌊rand k * 2⌋ :=
      Int.floor_nonneg.2 (by nlinarith [(hrand k).1])
    have h2 : ⌊rand k * 2⌋ < 2 := by
      rw [Int.floor_lt]
      push_cast
      nlinarith [(hrand k).2]
    omega
  intro r
  induction r with
  | zero => intro i0 k n hn; cases hn
  | succ rr ih =>
    intro i0 k n hn hn0 hn8
    rcases List.mem_append.1 hn with hmem | hmem
    · by_cases h0 : i0 % 16 = 0
      · have hstep : bassStep density gp rand i0 k =
            (some ⟨gp 0, i0, 2 + ⌊rand k * 2⌋, 100⟩, k + 1) := by
          simp [bassStep, h0]
        rw [hstep] at hmem
        simp only [Option.toList_some, List.mem_singleton] at hmem
        subst hmem
        exact absurd h0 hn0
      · by_cases h8 : i0 % 16 = 8
        · by_cases h15 : rand k > 1 / 5
          · have hstep : bassStep density gp rand i0 k =
                (some ⟨gp 0, i0, 2 + ⌊rand (k + 1) * 2⌋, 100⟩, k + 2) := by
              unfold bassStep
              rw [if_neg h0, if_pos h8, if_pos h15]
            rw [hstep] at hmem
            simp only [Option.toList_some, List.mem_singleton] at hmem
            subst hmem
            exact absurd h8 hn8
          · by_cases hden : rand (k + 1) * 100 < density * (1 / 2)
            · have hstep : bassStep density gp rand i0 k =
                  (some ⟨gp ([0, 2, 4, 6, 7].getD (⌊rand (k + 2) * 5⌋).toNat 0),
                    i0, 2 + ⌊rand (k + 3) * 2⌋, 100⟩, k + 4) := by
                unfold bassStep
                rw [if_neg h0, if_pos h8, if_neg h15, if_pos hden]
              rw [hstep] at hmem
              simp only [Option.toList_some, List.mem_singleton] at hmem
              subst hmem
              exact absurd h8 hn8
            · have hstep : bassStep density gp rand i0 k = (none, k + 2) := by
                unfold bassStep
                rw [if_neg h0, if_pos h8, if_neg h15, if_neg hden]
              rw [hstep] at hmem
              cases hmem
        · by_cases hden : rand k * 100 < density * (1 / 2)
          · have hstep : bassStep density gp rand i0 k =
                (some ⟨gp ([0, 2, 4, 6, 7].getD (⌊rand (k + 1) * 5⌋).toNat 0),
                  i0, 2 + ⌊rand (k + 2) * 2⌋, 100⟩, k + 3) := by
              unfold bassStep
              rw [if_neg h0, if_neg h8, if_pos hden]
            rw [hstep] at hmem
            simp only [Option.toList_some, List.mem_singleton] at hmem
            subst hmem
            exact ⟨⟨_, intervalSet_getD_mem _, rfl⟩, hdur _, rfl⟩
          · have hstep : bassStep density gp rand i0 k = (none, k + 1) := by
              unfold bassStep
              rw [if_neg h0, if_neg h8, if_neg hden]
            rw [hstep] at hmem
            cases hmem
    · exact ih (i0 + 1) (bassStep density gp rand i0 k).2 n hmem hn0 hn8

/-- Instantiating `generatePatternLogic` for the bass instrument:
octave-2 root, style scale, `lengthBars * 16` steps (clamped at 0). -/
theorem generatePatternLogic_basse (style rootKey : String) (lengthBars : Int)
    (density : ℚ) (rand : Nat → ℚ) :
    generatePatternLogic style "Basse" rootKey lengthBars density rand =
      bassLoop density
        (getPitch (jsIndexOf NOTES_NAMES rootKey + 36) (styleScale style))
        rand (lengthBars * 16).toNat 0 0 := by
  simp [generatePatternLogic]

/-- Claim C7: for every style, root key, positive `lengthBars` and
random stream, the bass pattern at density 100 contains, at step 0 of
every bar (`startTime` divisible by 16), a note whose pitch is the root
pitch — scale degree 0, which is `rootNote` since every scale's first
interval is 0. -/
theorem claim_C7 (style rootKey : String) (lengthBars : Int) (rand : Nat → ℚ)
    (hpos : 0 < lengthBars) (i : Nat) (hi : (i : Int) < lengthBars * 16)
    (hbar : i % 16 = 0) :
    ∃ d, (⟨jsIndexOf NOTES_NAMES rootKey + 36, i, d, 100⟩ : Note) ∈
      generatePatternLogic style "Basse" rootKey lengthBars 100 rand := by
  rw [generatePatternLogic_basse]
  have hlt : i < (lengthBars * 16).toNat := by omega
  obtain ⟨d, hd⟩ := bassLoop_bar_start 100
    (getPitch (jsIndexOf NOTES_NAMES rootKey + 36) (styleScale style)) rand
    (lengthBars * 16).toNat 0 0 i (Nat.zero_le i) (by omega) hbar
  rw [getPitch_zero] at hd
  exact ⟨d, hd⟩

theorem claim_C7_witness :
    ∃ d, (⟨jsIndexOf NOTES_NAMES "C" + 36, 0, d, 100⟩ : Note) ∈
      generatePatternLogic "Lo-Fi" "Basse" "C" 1 100 (fun _ => 0) :=
  claim_C7 "Lo-Fi" "C" 1 (fun _ => 0) (by norm_num) 0 (by norm_num) (by norm_num)

/-- Claim C8, amended: for every genuine (`[0,1)`-valued) random
stream, a bass note emitted on a step other than a bar's first step or
third beat has a pitch drawn from the scale-degree set
`{unison, third, fifth, seventh, octave} = {0,2,4,6,7}`, a duration of
2 to 3 sixteenth steps (the code computes `2 + floor(rand * 2)`, not
1–2), and the fixed velocity 100; on such a step the emission happens
exactly when the step's random draw satisfies
`rand * 100 < density * 0.5`, i.e. with probability `density × 0.5 %`. -/
theorem claim_C8 :
    (∀ (style rootKey : String) (lengthBars : Int) (density : ℚ) (rand : Nat → ℚ),
      (∀ k, 0 ≤ rand k ∧ rand k < 1) →
      ∀ n ∈ generatePatternLogic style "Basse" rootKey lengthBars density rand,
        n.startTime % 16 ≠ 0 → n.startTime % 16 ≠ 8 →
        (∃ deg ∈ ([0, 2, 4, 6, 7] : List Nat),
          n.pitch = getPitch (jsIndexOf NOTES_NAMES rootKey + 36) (styleScale style) deg)
        ∧ (n.duration = 2 ∨ n.duration = 3) ∧ n.velocity = 100)
    ∧ (∀ (density : ℚ) (gp : Nat → Int) (rand : Nat → ℚ) (i k : Nat),
        i % 16 ≠ 0 → i % 16 ≠ 8 →
        ((bassStep density gp rand i k).1.isSome ↔
          rand k * 100 < density * (1 / 2))) := by
  constructor
  · intro style rootKey lengthBars density rand hrand n hn hn0 hn8
    rw [generatePatternLogic_basse] at hn
    exact bassLoop_offbeat density _ rand hrand _ 0 0 n hn hn0 hn8
  · intro density gp rand i k h0 h8
    unfold bassStep
    rw [if_neg h0, if_neg h8]
    by_cases hden : rand k * 100 < density * (1 / 2)
    · rw [if_pos hden]
      simpa using hden
    · rw [if_neg hden]
      simpa using hden

theorem claim_C8_witness :
    ((bassStep 100 (fun _ => 36) (fun _ => 0) 1 0).1.isSome ↔
      (0 : ℚ) * 100 < 100 * (1 / 2)) :=
  claim_C8.2 100 (fun _ => 36) (fun _ => 0) 1 0 (by norm_num) (by norm_num)

/-- Claim C8 as stated fails on the duration: with the stream
`streamHalfAt3` (values 0 and 1/2, all in `[0,1)`), the bass generator
emits at off-beat step 1 a note of duration `2 + ⌊(1/2) * 2⌋ = 3`
sixteenth steps — not in the claimed 1-to-2 range. -/
theorem claim_C8_counterexample :
    (⟨36, 1, 3, 100⟩ : Note) ∈
      generatePatternLogic "Lo-Fi" "Basse" "C" 1 100 streamHalfAt3
    ∧ ¬((3 : Int) = 1 ∨ (3 : Int) = 2) := by
  constructor
  · rw [generatePatternLogic_basse]
    set gp := getPitch (jsIndexOf NOTES_NAMES "C" + 36) (styleScale "Lo-Fi")
      with hgpdef
    have h16 : ((1 : Int) * 16).toNat = 16 := by decide
    rw [h16]
    have hgp0 : gp 0 = 36 := by rw [hgpdef]; decide
    have hs0 : bassStep 100 gp streamHalfAt3 0 0 = (some ⟨gp 0, 0, 2, 100⟩, 1) := by
      norm_num [bassStep, streamHalfAt3]
    have hs1 : bassStep 100 gp streamHalfAt3 1 1 = (some ⟨36, 1, 3, 100⟩, 4) := by
      norm_num [bassStep, streamHalfAt3, hgp0]
    have hloop : bassLoop 100 gp streamHalfAt3 16 0 0 =
        (bassStep 100 gp streamHalfAt3 0 0).1.toList ++
          bassLoop 100 gp streamHalfAt3 15 1 (bassStep 100 gp streamHalfAt3 0 0).2 := rfl
    rw [hloop, hs0]
    refine List.mem_append_right _ ?_
    show (⟨36, 1, 3, 100⟩ : Note) ∈ bassLoop 100 gp streamHalfAt3 15 1 1
    have hloop2 : bassLoop 100 gp streamHalfAt3 15 1 1 =
        (bassStep 100 gp streamHalfAt3 1 1).1.toList ++
          bassLoop 100 gp streamHalfAt3 14 2 (bassStep 100 gp streamHalfAt3 1 1).2 := rfl
    rw [hloop2, hs1]
    exact List.mem_append_left _ (by simp)
  · decide

/-- Claim C9: for every style, instrument, root key, density and random
stream, `lengthBars ≤ 0` makes `totalSteps = lengthBars * 16`
non-positive, all three generation loops run zero times, and the
generator returns the empty list without error (the embedding is
total). -/
theorem claim_C9 (style instrument rootKey : String) (density : ℚ)
    (rand : Nat → ℚ) (lengthBars : Int) (h : lengthBars ≤ 0) :
    generatePatternLogic style instrument rootKey lengthBars density rand = [] := by
  unfold generatePatternLogic
  have h0 : (lengthBars * 16).toNat = 0 := by omega
  rw [h0]
  split_ifs <;> simp [bassLoop, chordGenLoop, leadLoop]

theorem claim_C9_witness :
    generatePatternLogic "Pop" "Basse" "C" 0 50 (fun _ => 0) = [] :=
  claim_C9 "Pop" "Basse" "C" 50 (fun _ => 0) 0 (by norm_num)

/-! ## Lemmas: chord-type lookups (claim C10) -/

theorem chordExportGo_isSome : ∀ (prog : List ChordItem) (idx : Nat),
    (∀ c ∈ prog, (lookupChordType c.type).isSome) →
    (chordExportGo idx prog).isSome := by
  intro prog
  induction prog with
  | nil => intro idx _; simp [chordExportGo]
  | cons c cs ih =>
    intro idx hinv
    obtain ⟨ivs, hivs⟩ := Option.isSome_iff_exists.1 (hinv c (by simp))
    obtain ⟨rest, hrest⟩ := Option.isSome_iff_exists.1
      (ih (idx + 1) (fun x hx => hinv x (by simp [hx])))
    have hca : chordNotesAt c idx = some (ivs.map fun iv =>
        (⟨(60 + jsIndexOf NOTES_NAMES c.root + iv).toNat,
          idx * 16 * 120, 16 * 120, 0⟩ : MidiNote)) := by
      simp [chordNotesAt, hivs]
    simp [chordExportGo, hca, hrest]

theorem chordExportGo_none : ∀ (prog : List ChordItem) (idx : Nat),
    (∃ c ∈ prog, lookupChordType c.type = none) →
    chordExportGo idx prog = none := by
  intro prog
  induction prog with
  | nil => intro idx h; simp at h
  | cons c cs ih =>
    intro idx ⟨x, hx, hnone⟩
    rcases List.mem_cons.1 hx with rfl | hx'
    · have hca : chordNotesAt x idx = none := by
        simp [chordNotesAt, hnone]
      simp [chordExportGo, hca]
    · have hrest := ih (idx + 1) ⟨x, hx', hnone⟩
      cases hca : chordNotesAt c idx with
      | none => simp [chordExportGo, hca]
      | some cns => simp [chordExportGo, hca, hrest]

theorem scheduleChordStep_isSome (prog : List ChordItem)
    (hinv : ∀ c ∈ prog, (lookupChordType c.type).isSome) :
    ∀ step, (scheduleChordStep prog step).isSome := by
  intro step
  unfold scheduleChordStep
  split_ifs with hlen hbar
  · simp
  · cases hget : prog.get? (step / 16 % prog.length) with
    | none => simp
    | some chord =>
      obtain ⟨ivs, hivs⟩ := Option.isSome_iff_exists.1
        (hinv chord (List.get?_mem hget))
      simp [hivs]
  · simp

theorem scheduleChordStep_none (prog : List ChordItem)
    (hbad : ∃ c ∈ prog, lookupChordType c.type = none) :
    ∃ step, scheduleChordStep prog step = none := by
  obtain ⟨c, hc, hnone⟩ := hbad
  obtain ⟨j, hj⟩ := List.mem_iff_get.1 hc
  refine ⟨j * 16, ?_⟩
  unfold scheduleChordStep
  have hpos : 0 < prog.length := lt_of_le_of_lt (Nat.zero_le _) j.isLt
  rw [if_neg (by omega), if_pos (by omega)]
  have hdiv : (j : Nat) * 16 / 16 % prog.length = (j : Nat) := by
    have h1 : (j : Nat) * 16 / 16 = (j : Nat) := by omega
    rw [h1]
    exact Nat.mod_eq_of_lt j.isLt
  rw [hdiv, List.get?_eq_get j.isLt, hj]
  simp [hnone]

/-- Claim C10: chord playback (`scheduleNote`) and chord export look up
`CHORD_TYPES[chord.type]` unguarded, so they are defined (`isSome`)
exactly under the precondition that every chord's type is a key of
`CHORD_TYPES`; a progression containing a chord with an unknown type
makes the export fail and some playback step fail; and `handleAddChord`
preserves the precondition whenever the selected type is a
`CHORD_TYPES` key (the UI offers only `Object.keys(CHORD_TYPES)`), so
the failure branch is unreachable for UI-built progressions. -/
theorem claim_C10 (prog : List ChordItem) :
    ((∀ c ∈ prog, (lookupChordType c.type).isSome) →
      (∀ step, (scheduleChordStep prog step).isSome)
      ∧ (chordExportNotes prog).isSome)
    ∧ ((∃ c ∈ prog, lookupChordType c.type = none) →
      chordExportNotes prog = none ∧ ∃ step, scheduleChordStep prog step = none)
    ∧ (∀ (newRoot newType : String) (id : Nat),
      (lookupChordType newType).isSome →
      (∀ c ∈ prog, (lookupChordType c.type).isSome) →
      ∀ c ∈ handleAddChord prog newRoot newType id,
        (lookupChordType c.type).isSome) := by
  refine ⟨fun hinv => ⟨scheduleChordStep_isSome prog hinv,
      chordExportGo_isSome prog 0 hinv⟩,
    fun hbad => ⟨chordExportGo_none prog 0 hbad, scheduleChordStep_none prog hbad⟩,
    ?_⟩
  intro newRoot newType id hT hinv c hc
  rcases List.mem_append.1 hc with h | h
  · exact hinv c h
  · simp only [List.mem_singleton] at h
    subst h
    exact hT

theorem claim_C10_witness :
    (∀ step, (scheduleChordStep [⟨1, "C", "m7", "C m7"⟩] step).isSome)
    ∧ (chordExportNotes [⟨1, "C", "m7", "C m7"⟩]).isSome :=
  (claim_C10 [⟨1, "C", "m7", "C m7"⟩]).1 (by decide)

end PatternLab
